import Mathlib

set_option maxHeartbeats 2000000
set_option maxRecDepth 8000

namespace PolarsSpec

/-!
Shallow embedding of the polars slice: the temporal codec
(`polars/utils.py`, exercised by `tests/test_utils.py`) and the
grouped-aggregation facade (`polars/internals/lazyframe/groupby.py`).
The codec and the execution engine are not part of the slice, so their
definitions are modelled from the spec; the facade is translated from
the source.
-/

/-- Modelled from the spec: proleptic-Gregorian leap-year rule used by the
temporal codec (`polars/utils.py` is absent from the slice). -/
def isLeapYear (y : Nat) : Bool :=
  y % 4 == 0 && (y % 100 != 0 || y % 400 == 0)

/-- Modelled from the spec: length of month `m` (1-12) in a year whose
leap status is `leap`. -/
def daysInMonthOf (leap : Bool) (m : Nat) : Nat :=
  match m with
  | 1 => 31
  | 2 => if leap then 29 else 28
  | 3 => 31
  | 4 => 30
  | 5 => 31
  | 6 => 30
  | 7 => 31
  | 8 => 31
  | 9 => 30
  | 10 => 31
  | 11 => 30
  | 12 => 31
  | _ => 0

/-- Modelled from the spec: days strictly before month `m` within a year of
leap status `leap`; for `m ≥ 13` the whole year length is returned. -/
def daysBeforeMonthOf (leap : Bool) (m : Nat) : Nat :=
  let k : Nat := if leap then 1 else 0
  match m with
  | 0 => 0
  | 1 => 0
  | 2 => 31
  | 3 => 59 + k
  | 4 => 90 + k
  | 5 => 120 + k
  | 6 => 151 + k
  | 7 => 181 + k
  | 8 => 212 + k
  | 9 => 243 + k
  | 10 => 273 + k
  | 11 => 304 + k
  | 12 => 334 + k
  | _ => 365 + k

/-- Modelled from the spec: number of days in a year of leap status `leap`. -/
def daysInYearOf (leap : Bool) : Nat :=
  if leap then 366 else 365

/-- Modelled from the spec: inverse of the day-of-year map; sends
`n ∈ [1, daysInYearOf leap]` to the month/day pair it denotes. -/
def doyToMonthDay (leap : Bool) (n : Nat) : Nat × Nat :=
  if n ≤ daysBeforeMonthOf leap 2 then (1, n)
  else if n ≤ daysBeforeMonthOf leap 3 then (2, n - daysBeforeMonthOf leap 2)
  else if n ≤ daysBeforeMonthOf leap 4 then (3, n - daysBeforeMonthOf leap 3)
  else if n ≤ daysBeforeMonthOf leap 5 then (4, n - daysBeforeMonthOf leap 4)
  else if n ≤ daysBeforeMonthOf leap 6 then (5, n - daysBeforeMonthOf leap 5)
  else if n ≤ daysBeforeMonthOf leap 7 then (6, n - daysBeforeMonthOf leap 6)
  else if n ≤ daysBeforeMonthOf leap 8 then (7, n - daysBeforeMonthOf leap 7)
  else if n ≤ daysBeforeMonthOf leap 9 then (8, n - daysBeforeMonthOf leap 8)
  else if n ≤ daysBeforeMonthOf leap 10 then (9, n - daysBeforeMonthOf leap 9)
  else if n ≤ daysBeforeMonthOf leap 11 then (10, n - daysBeforeMonthOf leap 10)
  else if n ≤ daysBeforeMonthOf leap 12 then (11, n - daysBeforeMonthOf leap 11)
  else (12, n - daysBeforeMonthOf leap 12)

/-- Modelled from the spec: days strictly before January 1 of year `y`
(proleptic Gregorian, year 1 starts the count). -/
def daysBeforeYear (y : Nat) : Nat :=
  365 * (y - 1) + ((y - 1) / 4 - (y - 1) / 100) + (y - 1) / 400

/-- A Gregorian calendar date (year, month, day); spec entity CalendarDate. -/
structure CalendarDate where
  year : Nat
  month : Nat
  day : Nat
deriving DecidableEq, Repr

/-- Modelled from the spec: length of month `m` of year `y`. -/
def daysInMonth (y m : Nat) : Nat :=
  daysInMonthOf (isLeapYear y) m

/-- A date is valid when its fields denote an actual proleptic-Gregorian
calendar day in the representable year range 1-9999. -/
def validDate (d : CalendarDate) : Bool :=
  decide (1 ≤ d.year) && decide (d.year ≤ 9999) &&
    decide (1 ≤ d.month) && decide (d.month ≤ 12) &&
    decide (1 ≤ d.day) && decide (d.day ≤ daysInMonth d.year d.month)

/-- Modelled from the spec: proleptic-Gregorian ordinal of a date, counting
0001-01-01 as 1. -/
def toOrdinal (d : CalendarDate) : Nat :=
  daysBeforeYear d.year + (daysBeforeMonthOf (isLeapYear d.year) d.month + d.day)

/-- Ordinal of the epoch reference 1970-01-01. -/
def epochOrdinal : Nat := 719163

/-- Modelled from the spec: `dateToEpochDays` of the temporal codec — signed
number of days from 1970-01-01 to `d` (negative before the epoch). -/
def dateToEpochDays (d : CalendarDate) : Int :=
  (toOrdinal d : Int) - (epochOrdinal : Int)

/-- Strict lexicographic ordering of calendar dates. -/
def dateLtB (a b : CalendarDate) : Bool :=
  decide (a.year < b.year) ||
    (a.year == b.year &&
      (decide (a.month < b.month) ||
        (a.month == b.month && decide (a.day < b.day))))

/-- A naive calendar date-time with microsecond precision; spec entity
CalendarDateTime. -/
structure CalendarDateTime where
  year : Nat
  month : Nat
  day : Nat
  hour : Nat
  minute : Nat
  second : Nat
  microsecond : Nat
deriving DecidableEq, Repr

/-- The calendar-date component of a date-time. -/
def dateOf (dt : CalendarDateTime) : CalendarDate :=
  ⟨dt.year, dt.month, dt.day⟩

/-- A date-time is valid when its date is valid and each time-of-day field is
within its conventional bound. -/
def validDateTime (dt : CalendarDateTime) : Bool :=
  validDate (dateOf dt) && decide (dt.hour ≤ 23) && decide (dt.minute ≤ 59) &&
    decide (dt.second ≤ 59) && decide (dt.microsecond ≤ 999999)

/-- The engine's native temporal resolutions; spec entity TimeUnit. -/
inductive TimeUnit where
  | ns
  | us
  | ms
deriving DecidableEq, Repr

/-- Per-second scaling factor of a time unit. -/
def unitFactor : TimeUnit → Int
  | .ns => 1000000000
  | .us => 1000000
  | .ms => 1000

/-- Modelled from the spec: the default resolution used when a caller leaves
the unit argument absent. -/
def defaultTimeUnit : TimeUnit := .us

/-- Modelled from the spec: whole seconds from the epoch reference to `dt`,
by civil calendar arithmetic. -/
def secondsSinceEpoch (dt : CalendarDateTime) : Int :=
  dateToEpochDays (dateOf dt) * 86400 +
    ((dt.hour * 3600 + dt.minute * 60 + dt.second : Nat) : Int)

/-- Modelled from the spec: the sub-second component of `dt` converted to the
requested unit (truncation toward the stored microsecond precision). -/
def subsecondInUnit (dt : CalendarDateTime) : TimeUnit → Int
  | .ns => ((dt.microsecond * 1000 : Nat) : Int)
  | .us => ((dt.microsecond : Nat) : Int)
  | .ms => ((dt.microsecond / 1000 : Nat) : Int)

/-- Modelled from the spec: `datetimeToTimestamp` of the temporal codec —
signed count of `u` from the epoch reference to `dt`. -/
def datetimeToTimestamp (dt : CalendarDateTime) (u : TimeUnit) : Int :=
  secondsSinceEpoch dt * unitFactor u + subsecondInUnit dt u

/-- A signed span of time in days, seconds and microseconds, normalised the
way Python timedelta stores it; spec entity CalendarDuration. -/
structure CalendarDuration where
  days : Int
  seconds : Nat
  microseconds : Nat
deriving DecidableEq, Repr

/-- Whole seconds contained in a duration. -/
def durationSeconds (d : CalendarDuration) : Int :=
  d.days * 86400 + (d.seconds : Int)

/-- Modelled from the spec: signed count of the unit `u` in duration `d`. -/
def durationToUnitsAt (d : CalendarDuration) : TimeUnit → Int
  | .ns => durationSeconds d * 1000000000 + ((d.microseconds * 1000 : Nat) : Int)
  | .us => durationSeconds d * 1000000 + ((d.microseconds : Nat) : Int)
  | .ms => durationSeconds d * 1000 + ((d.microseconds / 1000 : Nat) : Int)

/-- Modelled from the spec: `durationToUnits` of the temporal codec — the
unit argument may be absent, in which case the default resolution is used. -/
def durationToUnits (d : CalendarDuration) (u : Option TimeUnit) : Int :=
  durationToUnitsAt d (u.getD defaultTimeUnit)

/-- Strict lexicographic ordering of calendar date-times. -/
def dtLtB (a b : CalendarDateTime) : Bool :=
  decide (a.year < b.year) ||
    (a.year == b.year &&
      (decide (a.month < b.month) ||
        (a.month == b.month &&
          (decide (a.day < b.day) ||
            (a.day == b.day &&
              (decide (a.hour < b.hour) ||
                (a.hour == b.hour &&
                  (decide (a.minute < b.minute) ||
                    (a.minute == b.minute &&
                      (decide (a.second < b.second) ||
                        (a.second == b.second &&
                          decide (a.microsecond < b.microsecond))))))))))))

/-- Earliest microsecond-precision date-time whose nanosecond timestamp fits
in a signed 64-bit integer. -/
def nsWindowMin : CalendarDateTime := ⟨1677, 9, 21, 0, 12, 43, 145225⟩

/-- Latest microsecond-precision date-time whose nanosecond timestamp fits in
a signed 64-bit integer. -/
def nsWindowMax : CalendarDateTime := ⟨2262, 4, 11, 23, 47, 16, 854775⟩

/-- Modelled from the spec: `inNanosecondsWindow` of the temporal codec —
a direct comparison of `dt` against fixed calendar bounds, not a conversion
followed by an overflow check. -/
def inNanosecondsWindow (dt : CalendarDateTime) : Bool :=
  !dtLtB dt nsWindowMin && !dtLtB nsWindowMax dt

/-!
Grouped-aggregation facade, translated from
`polars/internals/lazyframe/groupby.py`. Python duck typing of the `aggs`
argument is embedded as a sum type of the shapes the code distinguishes.
-/

/-- Possible shapes of the `aggs` argument of `LazyGroupBy.agg`: a single
expression, a sequence of expressions, a bare string, or a value of any
other runtime type (identified by its type name). -/
inductive AggsInput (E : Type) where
  | single (e : E)
  | sequenceOf (es : List E)
  | bareStr (s : String)
  | otherVal (tyName : String)
deriving DecidableEq, Repr

/-- The Python runtime type name of an `aggs` argument, as interpolated into
the facade's error message. -/
def AggsInput.pyTypeName {E : Type} : AggsInput E → String
  | .single _ => "Expr"
  | .sequenceOf _ => "Sequence"
  | .bareStr _ => "str"
  | .otherVal t => t

/-- Modelled from the spec: the shape test `isinstance(aggs, pli.Expr) or
is_expr_sequence(aggs)` — `is_expr_sequence` lives in `polars.utils`, absent
from the slice; per the spec it accepts exactly a non-empty ordered sequence
of expressions. -/
def isExprOrExprSequence {E : Type} : AggsInput E → Bool
  | .single _ => true
  | .sequenceOf es => !es.isEmpty
  | .bareStr _ => false
  | .otherVal _ => false

/-- Translation of `ensure_list_of_pyexpr`: normalise the accepted shapes to
an ordered list of expressions. -/
def ensureListOfPyexpr {E : Type} : AggsInput E → List E
  | .single e => [e]
  | .sequenceOf es => es
  | .bareStr _ => []
  | .otherVal _ => []

/-- The Execution Engine entry points the facade can invoke, recorded as
data: the facade's only observable effect is which call it makes. -/
inductive EngineCall (E : Type) where
  | aggCall (exprs : List E)
  | headCall (n : Int)
  | tailCall (n : Int)
deriving DecidableEq, Repr

/-- Error message raised by `LazyGroupBy.agg` on a shape mismatch, from the
source f-string. -/
def aggErrorMessage {E : Type} (a : AggsInput E) : String :=
  "expected Expr | Sequence[Expr], got " ++ a.pyTypeName

/-- Translation of `LazyGroupBy.agg`: validate the shape of `aggs`, raise a
TypeError naming the received type on mismatch, otherwise forward the
normalised expression list to the engine's grouped-aggregate entry point. -/
def lazyGroupByAgg {E : Type} (aggs : AggsInput E) : Except String (EngineCall E) :=
  if isExprOrExprSequence aggs then
    Except.ok (EngineCall.aggCall (ensureListOfPyexpr aggs))
  else
    Except.error (aggErrorMessage aggs)

/-- Translation of `LazyGroupBy.head`: no validation, the argument is
forwarded unchanged to the engine's grouped-head entry point. -/
def lazyGroupByHead {E : Type} (n : Int) : Except String (EngineCall E) :=
  Except.ok (EngineCall.headCall n)

/-- Translation of `LazyGroupBy.tail`: no validation, the argument is
forwarded unchanged to the engine's grouped-tail entry point. -/
def lazyGroupByTail {E : Type} (n : Int) : Except String (EngineCall E) :=
  Except.ok (EngineCall.tailCall n)

/-!
Model of the Execution Engine's grouped operations, modelled from the spec
(the native engine is an out-of-scope collaborator): a table is a list of
rows, a grouping is a key function, and the engine emits the rows of each
distinct group in some group order — first-seen order when
`maintain_order` is set, an engine-chosen order otherwise.
-/

/-- Modelled from the spec: the rows of the group keyed `k`, in original
input row order. -/
def groupRows {Row K : Type} [DecidableEq K] (key : Row → K) (rows : List Row)
    (k : K) : List Row :=
  rows.filter (fun r => decide (key r = k))

/-- Modelled from the spec: the distinct elements of a list in the order
each first appears. -/
def firstSeen {K : Type} [DecidableEq K] : List K → List K
  | [] => []
  | k :: ks => k :: (firstSeen ks).filter (fun k2 => !decide (k2 = k))

/-- An engine-chosen group order is admissible when it enumerates exactly
the distinct keys of the input, each once. -/
def validOrder {Row K : Type} [DecidableEq K] (key : Row → K) (rows : List Row)
    (order : List K) : Prop :=
  order.Nodup ∧ (∀ k ∈ rows.map key, k ∈ order) ∧ ∀ k ∈ order, k ∈ rows.map key

instance validOrder_decidable {Row K : Type} [DecidableEq K] (key : Row → K)
    (rows : List Row) (order : List K) : Decidable (validOrder key rows order) :=
  inferInstanceAs (Decidable (order.Nodup ∧ (∀ k ∈ rows.map key, k ∈ order) ∧
    ∀ k ∈ order, k ∈ rows.map key))

/-- Modelled from the spec: the group order the engine emits — first-seen
order of the distinct keys under `maintain_order`, otherwise the
engine-chosen order. -/
def groupOrder {Row K : Type} [DecidableEq K] (key : Row → K) (rows : List Row)
    (maintainOrder : Bool) (engineOrder : List K) : List K :=
  if maintainOrder then firstSeen (rows.map key) else engineOrder

/-- Modelled from the spec: the engine's grouped-head — for each group, the
first `n` rows in original input row order. -/
def groupedHead {Row K : Type} [DecidableEq K] (key : Row → K) (rows : List Row)
    (n : Nat) (maintainOrder : Bool) (engineOrder : List K) : List Row :=
  ((groupOrder key rows maintainOrder engineOrder).map
    (fun k => (groupRows key rows k).take n)).flatten

/-- Modelled from the spec: the engine's grouped-tail — for each group, the
last `n` rows in original (not reversed) input row order. -/
def groupedTail {Row K : Type} [DecidableEq K] (key : Row → K) (rows : List Row)
    (n : Nat) (maintainOrder : Bool) (engineOrder : List K) : List Row :=
  ((groupOrder key rows maintainOrder engineOrder).map
    (fun k => (groupRows key rows k).drop ((groupRows key rows k).length - n))).flatten

/-- Modelled from the spec: the engine's grouped-aggregate — one output row
per group, carrying the group key and the aggregate of the group's rows. -/
def groupedAgg {Row K A : Type} [DecidableEq K] (key : Row → K) (rows : List Row)
    (e : List Row → A) (maintainOrder : Bool) (engineOrder : List K) :
    List (K × A) :=
  (groupOrder key rows maintainOrder engineOrder).map
    (fun k => (k, e (groupRows key rows k)))

/-- Modelled from the spec: the sequence of per-group materialised tables
handed to the `apply` callback, in invocation order. -/
def groupedApplyTables {Row K : Type} [DecidableEq K] (key : Row → K)
    (rows : List Row) (maintainOrder : Bool) (engineOrder : List K) :
    List (List Row) :=
  (groupOrder key rows maintainOrder engineOrder).map (groupRows key rows)

/-- Modelled from the spec: the engine's grouped-apply — each group is
materialised, the callback is invoked on it sequentially in group order, and
the returned tables are concatenated. -/
def groupedApply {Row K A : Type} [DecidableEq K] (key : Row → K)
    (rows : List Row) (f : List Row → List (K × A)) (maintainOrder : Bool)
    (engineOrder : List K) : List (K × A) :=
  ((groupedApplyTables key rows maintainOrder engineOrder).map f).flatten

/-- Rows of the docstring example of `LazyGroupBy.head` and
`LazyGroupBy.tail`: columns letters/nrs, keyed by the first component. -/
def demoRows : List (String × Nat) :=
  [("c", 1), ("c", 2), ("a", 3), ("c", 4), ("a", 5), ("b", 6)]

/-- Rows of the docstring example of `LazyGroupBy.apply`: columns bar/foo,
keyed by the first component. -/
def demoRows2 : List (String × Int) :=
  [("a", 1), ("b", 2), ("c", 3), ("c", 1)]

/-- The native engine expression of the `apply` docstring example: sum the
foo column of a group. -/
def sumFoo (g : List (String × Int)) : Int :=
  (g.map Prod.snd).sum

/-- The user callback of the `apply` docstring example: emit one row carrying
the group key (read off the materialised table) and the foo sum. -/
def sumCallback (t : List (String × Int)) : List (String × Int) :=
  [((t.headD ("", 0)).1, (t.map Prod.snd).sum)]

/-!
Lemmas about the temporal codec. The month-level facts are finite and are
settled by `decide`; the year-level facts are arithmetic.
-/

theorem daysBeforeMonthOf_step :
    ∀ leap : Bool, ∀ m < 13, 1 ≤ m →
      daysBeforeMonthOf leap m + daysInMonthOf leap m =
        daysBeforeMonthOf leap (m + 1) := by
  decide

theorem daysBeforeMonthOf_mono :
    ∀ leap : Bool, ∀ m1 < 13, ∀ m2 < 13, 1 ≤ m1 → m1 < m2 →
      daysBeforeMonthOf leap m1 + daysInMonthOf leap m1 ≤
        daysBeforeMonthOf leap m2 := by
  decide

theorem doy_le_daysInYear :
    ∀ leap : Bool, ∀ m < 13, ∀ d < 32, 1 ≤ m → 1 ≤ d →
      d ≤ daysInMonthOf leap m →
      daysBeforeMonthOf leap m + d ≤ daysInYearOf leap := by
  decide

theorem doyToMonthDay_left_inverse :
    ∀ leap : Bool, ∀ m < 13, ∀ d < 32,
      1 ≤ m ∧ 1 ≤ d ∧ d ≤ daysInMonthOf leap m →
      doyToMonthDay leap (daysBeforeMonthOf leap m + d) = (m, d) := by
  decide

theorem doyToMonthDay_month_ge :
    ∀ leap : Bool, ∀ n < 367, 1 ≤ n → n ≤ daysInYearOf leap →
      1 ≤ (doyToMonthDay leap n).1 := by
  decide

theorem doyToMonthDay_month_le :
    ∀ leap : Bool, ∀ n < 367, 1 ≤ n → n ≤ daysInYearOf leap →
      (doyToMonthDay leap n).1 ≤ 12 := by
  decide

theorem doyToMonthDay_day_ge :
    ∀ leap : Bool, ∀ n < 367, 1 ≤ n → n ≤ daysInYearOf leap →
      1 ≤ (doyToMonthDay leap n).2 := by
  decide

theorem doyToMonthDay_day_le :
    ∀ leap : Bool, ∀ n < 367, 1 ≤ n → n ≤ daysInYearOf leap →
      (doyToMonthDay leap n).2 ≤ daysInMonthOf leap (doyToMonthDay leap n).1 := by
  decide

theorem doyToMonthDay_recompose :
    ∀ leap : Bool, ∀ n < 367, 1 ≤ n → n ≤ daysInYearOf leap →
      daysBeforeMonthOf leap (doyToMonthDay leap n).1 +
        (doyToMonthDay leap n).2 = n := by
  decide

theorem isLeapYear_iff (y : Nat) :
    isLeapYear y = true ↔ y % 4 = 0 ∧ (y % 100 ≠ 0 ∨ y % 400 = 0) := by
  simp [isLeapYear, Bool.and_eq_true, Bool.or_eq_true]

theorem daysBeforeYear_step (y : Nat) (h : 1 ≤ y) :
    daysBeforeYear (y + 1) =
      daysBeforeYear y + daysInYearOf (isLeapYear y) := by
  have hiff := isLeapYear_iff y
  unfold daysBeforeYear daysInYearOf
  by_cases hl : isLeapYear y = true
  · rw [if_pos hl]
    rw [hl] at hiff
    simp only [true_iff] at hiff
    omega
  · rw [if_neg hl]
    simp only [Bool.not_eq_true] at hl
    rw [hl] at hiff
    simp only [Bool.false_eq_true, false_iff] at hiff
    push_neg at hiff
    omega

theorem daysInMonthOf_le (leap : Bool) (m : Nat) :
    daysInMonthOf leap m ≤ 31 := by
  unfold daysInMonthOf
  split <;> first | omega | (split <;> omega)

theorem daysInYearOf_le (leap : Bool) : daysInYearOf leap ≤ 366 := by
  unfold daysInYearOf
  split <;> omega

theorem daysBeforeYear_mono {y1 y2 : Nat} (h1 : 1 ≤ y1) (h : y1 ≤ y2) :
    daysBeforeYear y1 ≤ daysBeforeYear y2 := by
  induction y2, h using Nat.le_induction with
  | base => exact Nat.le_refl _
  | succ n hn ih =>
      have hstep := daysBeforeYear_step n (Nat.le_trans h1 hn)
      omega

theorem validDate_iff (d : CalendarDate) :
    validDate d = true ↔
      1 ≤ d.year ∧ d.year ≤ 9999 ∧ 1 ≤ d.month ∧ d.month ≤ 12 ∧
        1 ≤ d.day ∧ d.day ≤ daysInMonth d.year d.month := by
  simp [validDate, Bool.and_eq_true, and_assoc]

theorem toOrdinal_lower (d : CalendarDate) (hv : validDate d = true) :
    daysBeforeYear d.year < toOrdinal d := by
  have h := (validDate_iff d).mp hv
  unfold toOrdinal
  omega

theorem toOrdinal_upper (d : CalendarDate) (hv : validDate d = true) :
    toOrdinal d ≤ daysBeforeYear (d.year + 1) := by
  have h := (validDate_iff d).mp hv
  have hdm : d.day ≤ 31 :=
    Nat.le_trans h.2.2.2.2.2 (daysInMonthOf_le (isLeapYear d.year) d.month)
  have hdoy := doy_le_daysInYear (isLeapYear d.year) d.month (by omega) d.day
    (by omega) h.2.2.1 h.2.2.2.2.1 h.2.2.2.2.2
  have hstep := daysBeforeYear_step d.year h.1
  unfold toOrdinal
  omega

theorem dateLtB_iff (a b : CalendarDate) :
    dateLtB a b = true ↔
      a.year < b.year ∨
        a.year = b.year ∧
          (a.month < b.month ∨ a.month = b.month ∧ a.day < b.day) := by
  simp [dateLtB, Bool.or_eq_true, Bool.and_eq_true]

theorem toOrdinal_strictMono {d1 d2 : CalendarDate} (h1 : validDate d1 = true)
    (h2 : validDate d2 = true) (hlt : dateLtB d1 d2 = true) :
    toOrdinal d1 < toOrdinal d2 := by
  have v1 := (validDate_iff d1).mp h1
  have v2 := (validDate_iff d2).mp h2
  rcases (dateLtB_iff d1 d2).mp hlt with hy | ⟨hy, hm | ⟨hm, hd⟩⟩
  · have ub := toOrdinal_upper d1 h1
    have lb := toOrdinal_lower d2 h2
    have hmono : daysBeforeYear (d1.year + 1) ≤ daysBeforeYear d2.year :=
      daysBeforeYear_mono (by omega) (by omega)
    omega
  · have hmm := daysBeforeMonthOf_mono (isLeapYear d1.year) d1.month
      (by omega) d2.month (by omega) v1.2.2.1 hm
    unfold toOrdinal
    rw [hy]
    have : d1.day ≤ daysInMonthOf (isLeapYear d2.year) d1.month := by
      have := v1.2.2.2.2.2
      unfold daysInMonth at this
      rw [hy] at this
      exact this
    rw [hy] at hmm
    omega
  · unfold toOrdinal
    rw [hy, hm]
    omega

theorem dateLtB_trichotomy (a b : CalendarDate) :
    dateLtB a b = true ∨ a = b ∨ dateLtB b a = true := by
  rcases a with ⟨y1, m1, d1⟩
  rcases b with ⟨y2, m2, d2⟩
  simp only [dateLtB_iff, CalendarDate.mk.injEq]
  omega

theorem toOrdinal_lt_iff {d1 d2 : CalendarDate} (h1 : validDate d1 = true)
    (h2 : validDate d2 = true) :
    dateLtB d1 d2 = true ↔ toOrdinal d1 < toOrdinal d2 := by
  constructor
  · exact toOrdinal_strictMono h1 h2
  · intro hlt
    rcases dateLtB_trichotomy d1 d2 with h | h | h
    · exact h
    · subst h
      omega
    · have := toOrdinal_strictMono h2 h1 h
      omega

theorem toOrdinal_injOn {d1 d2 : CalendarDate} (h1 : validDate d1 = true)
    (h2 : validDate d2 = true) (heq : toOrdinal d1 = toOrdinal d2) :
    d1 = d2 := by
  rcases dateLtB_trichotomy d1 d2 with h | h | h
  · have := toOrdinal_strictMono h1 h2 h
    omega
  · exact h
  · have := toOrdinal_strictMono h2 h1 h
    omega

theorem toOrdinal_surj_aux :
    ∀ k n : Nat, 1 ≤ n → n ≤ daysBeforeYear (k + 1) → k ≤ 9999 →
      ∃ d : CalendarDate, validDate d = true ∧ toOrdinal d = n := by
  intro k
  induction k with
  | zero =>
      intro n h1 h2 _
      exfalso
      have hz : daysBeforeYear (0 + 1) = 0 := by decide
      omega
  | succ k ih =>
      intro n h1 h2 hk
      have hstep := daysBeforeYear_step (k + 1) (by omega)
      by_cases hc : n ≤ daysBeforeYear (k + 1)
      · exact ih n h1 hc (by omega)
      · push_neg at hc
        have hd1 : 1 ≤ n - daysBeforeYear (k + 1) := by omega
        have hd2 : n - daysBeforeYear (k + 1) ≤ daysInYearOf (isLeapYear (k + 1)) := by
          omega
        have h367 : n - daysBeforeYear (k + 1) < 367 := by
          have := daysInYearOf_le (isLeapYear (k + 1))
          omega
        have hm1 := doyToMonthDay_month_ge (isLeapYear (k + 1)) _ h367 hd1 hd2
        have hm2 := doyToMonthDay_month_le (isLeapYear (k + 1)) _ h367 hd1 hd2
        have hD1 := doyToMonthDay_day_ge (isLeapYear (k + 1)) _ h367 hd1 hd2
        have hD2 := doyToMonthDay_day_le (isLeapYear (k + 1)) _ h367 hd1 hd2
        have hrec := doyToMonthDay_recompose (isLeapYear (k + 1)) _ h367 hd1 hd2
        refine ⟨⟨k + 1, (doyToMonthDay (isLeapYear (k + 1)) (n - daysBeforeYear (k + 1))).1,
          (doyToMonthDay (isLeapYear (k + 1)) (n - daysBeforeYear (k + 1))).2⟩, ?_, ?_⟩
        · rw [validDate_iff]
          dsimp only
          refine ⟨by omega, by omega, hm1, hm2, hD1, hD2⟩
        · unfold toOrdinal
          simp only
          omega

theorem toOrdinal_le_max (d : CalendarDate) (hv : validDate d = true) :
    toOrdinal d ≤ 3652059 := by
  have h := (validDate_iff d).mp hv
  have ub := toOrdinal_upper d hv
  have hmono : daysBeforeYear (d.year + 1) ≤ daysBeforeYear 10000 :=
    daysBeforeYear_mono (by omega) (by omega)
  have hmax : daysBeforeYear 10000 = 3652059 := by decide
  omega

/-- C2: `dateToEpochDays` is exact proleptic-Gregorian calendar arithmetic
anchored at 1970-01-01: it sends the epoch to 0, is negative exactly on
dates before the epoch, is a bijection from the valid dates onto the
representable day range, and sends 1999-09-09 to 10843. -/
theorem C2_dateToEpochDays :
    dateToEpochDays ⟨1970, 1, 1⟩ = 0 ∧
    dateToEpochDays ⟨1999, 9, 9⟩ = 10843 ∧
    (∀ d : CalendarDate, validDate d = true →
      (dateToEpochDays d < 0 ↔ dateLtB d ⟨1970, 1, 1⟩ = true)) ∧
    Set.BijOn dateToEpochDays {d : CalendarDate | validDate d = true}
      (Set.Icc (-719162 : Int) 2932896) := by
  have hepoch : validDate ⟨1970, 1, 1⟩ = true := by decide
  have h1970 : toOrdinal ⟨1970, 1, 1⟩ = 719163 := by decide
  refine ⟨by decide, by decide, ?_, ?_, ?_, ?_⟩
  · intro d hv
    rw [toOrdinal_lt_iff hv hepoch, h1970]
    unfold dateToEpochDays epochOrdinal
    omega
  · intro d hd
    simp only [Set.mem_setOf_eq] at hd
    have hlow := toOrdinal_lower d hd
    have hup := toOrdinal_le_max d hd
    simp only [Set.mem_Icc]
    unfold dateToEpochDays epochOrdinal
    omega
  · intro d1 h1 d2 h2 heq
    simp only [Set.mem_setOf_eq] at h1 h2
    apply toOrdinal_injOn h1 h2
    unfold dateToEpochDays epochOrdinal at heq
    omega
  · intro z hz
    simp only [Set.mem_Icc] at hz
    have hmax : daysBeforeYear (9999 + 1) = 3652059 := by decide
    obtain ⟨d, hd, hord⟩ := toOrdinal_surj_aux 9999 (z + 719163).toNat
      (by omega) (by omega) (by omega)
    refine ⟨d, hd, ?_⟩
    unfold dateToEpochDays epochOrdinal
    omega

theorem C2_dateToEpochDays_witness :
    validDate ⟨1969, 12, 31⟩ = true ∧
      (dateToEpochDays ⟨1969, 12, 31⟩ < 0 ↔
        dateLtB ⟨1969, 12, 31⟩ ⟨1970, 1, 1⟩ = true) :=
  ⟨by decide, C2_dateToEpochDays.2.2.1 ⟨1969, 12, 31⟩ (by decide)⟩

/-- C3: `datetimeToTimestamp` equals seconds-since-epoch (civil calendar
arithmetic) scaled by the per-second factor of the unit, plus the sub-second
component converted to the unit; at 2121-01-01T00:00:00 it yields the three
documented values. -/
theorem C3_datetimeToTimestamp :
    (∀ (dt : CalendarDateTime) (u : TimeUnit),
      datetimeToTimestamp dt u =
        secondsSinceEpoch dt * unitFactor u + subsecondInUnit dt u) ∧
    datetimeToTimestamp ⟨2121, 1, 1, 0, 0, 0, 0⟩ .ns = 4765132800000000000 ∧
    datetimeToTimestamp ⟨2121, 1, 1, 0, 0, 0, 0⟩ .us = 4765132800000000 ∧
    datetimeToTimestamp ⟨2121, 1, 1, 0, 0, 0, 0⟩ .ms = 4765132800000 :=
  ⟨fun _ _ => rfl, by decide, by decide, by decide⟩

/-- C4: `durationToUnits` returns the exact signed count of the requested
unit; an absent unit falls back to the microsecond default; a 1-day duration
yields the documented values at each resolution. -/
theorem C4_durationToUnits :
    (∀ d : CalendarDuration,
      durationToUnits d none = durationToUnits d (some TimeUnit.us)) ∧
    durationToUnits ⟨1, 0, 0⟩ (some TimeUnit.ns) = 86400000000000 ∧
    durationToUnits ⟨1, 0, 0⟩ (some TimeUnit.us) = 86400000000 ∧
    durationToUnits ⟨1, 0, 0⟩ (some TimeUnit.ms) = 86400000 ∧
    durationToUnits ⟨1, 0, 0⟩ none = 86400000000 :=
  ⟨fun _ => rfl, by decide, by decide, by decide, by decide⟩

theorem validDateTime_iff (dt : CalendarDateTime) :
    validDateTime dt = true ↔
      validDate (dateOf dt) = true ∧ dt.hour ≤ 23 ∧ dt.minute ≤ 59 ∧
        dt.second ≤ 59 ∧ dt.microsecond ≤ 999999 := by
  simp [validDateTime, Bool.and_eq_true, and_assoc]

theorem dtLtB_cases (a b : CalendarDateTime) :
    dtLtB a b = true ↔
      dateLtB (dateOf a) (dateOf b) = true ∨
        dateOf a = dateOf b ∧
          (a.hour < b.hour ∨
            a.hour = b.hour ∧
              (a.minute < b.minute ∨
                a.minute = b.minute ∧
                  (a.second < b.second ∨
                    a.second = b.second ∧ a.microsecond < b.microsecond))) := by
  simp only [dtLtB, dateLtB, dateOf, CalendarDate.mk.injEq, Bool.or_eq_true,
    Bool.and_eq_true, decide_eq_true_iff, beq_iff_eq]
  tauto

theorem dtLtB_trichotomy (a b : CalendarDateTime) :
    dtLtB a b = true ∨ a = b ∨ dtLtB b a = true := by
  rcases a with ⟨y1, m1, d1, h1, mi1, s1, u1⟩
  rcases b with ⟨y2, m2, d2, h2, mi2, s2, u2⟩
  simp only [dtLtB_cases, dateLtB_iff, dateOf, CalendarDate.mk.injEq,
    CalendarDateTime.mk.injEq]
  omega

theorem tsNs_strictMono {a b : CalendarDateTime} (ha : validDateTime a = true)
    (hb : validDateTime b = true) (hlt : dtLtB a b = true) :
    datetimeToTimestamp a TimeUnit.ns < datetimeToTimestamp b TimeUnit.ns := by
  have va := (validDateTime_iff a).mp ha
  have vb := (validDateTime_iff b).mp hb
  rcases (dtLtB_cases a b).mp hlt with hdate | ⟨hdeq, htod⟩
  · have hord := toOrdinal_strictMono va.1 vb.1 hdate
    simp only [datetimeToTimestamp, secondsSinceEpoch, subsecondInUnit,
      unitFactor, dateToEpochDays, epochOrdinal]
    obtain ⟨_, hh1, hm1, hs1, hu1⟩ := va
    obtain ⟨_, hh2, hm2, hs2, hu2⟩ := vb
    omega
  · have hord : toOrdinal (dateOf a) = toOrdinal (dateOf b) := by rw [hdeq]
    simp only [datetimeToTimestamp, secondsSinceEpoch, subsecondInUnit,
      unitFactor, dateToEpochDays, epochOrdinal]
    obtain ⟨_, hh1, hm1, hs1, hu1⟩ := va
    obtain ⟨_, hh2, hm2, hs2, hu2⟩ := vb
    omega

theorem tsNs_multiple (dt : CalendarDateTime) :
    datetimeToTimestamp dt TimeUnit.ns =
      1000 * (secondsSinceEpoch dt * 1000000 + (dt.microsecond : Int)) := by
  unfold datetimeToTimestamp subsecondInUnit unitFactor
  push_cast
  ring

theorem inNanosecondsWindow_iff (dt : CalendarDateTime)
    (hv : validDateTime dt = true) :
    inNanosecondsWindow dt = true ↔
      -9223372036854775808 ≤ datetimeToTimestamp dt TimeUnit.ns ∧
        datetimeToTimestamp dt TimeUnit.ns ≤ 9223372036854775807 := by
  have hvmin : validDateTime nsWindowMin = true := by decide
  have hvmax : validDateTime nsWindowMax = true := by decide
  have hmin : datetimeToTimestamp nsWindowMin TimeUnit.ns =
      -9223372036854775000 := by decide
  have hmax : datetimeToTimestamp nsWindowMax TimeUnit.ns =
      9223372036854775000 := by decide
  have hq := tsNs_multiple dt
  constructor
  · intro hw
    have hw2 : dtLtB dt nsWindowMin = false ∧ dtLtB nsWindowMax dt = false := by
      revert hw
      unfold inNanosecondsWindow
      rcases dtLtB dt nsWindowMin with _ | _ <;>
        rcases dtLtB nsWindowMax dt with _ | _ <;> simp
    obtain ⟨h1, h2⟩ := hw2
    constructor
    · rcases dtLtB_trichotomy dt nsWindowMin with h | h | h
      · rw [h1] at h
        cases h
      · rw [h, hmin]
        omega
      · have := tsNs_strictMono hvmin hv h
        omega
    · rcases dtLtB_trichotomy nsWindowMax dt with h | h | h
      · rw [h2] at h
        cases h
      · rw [← h, hmax]
        omega
      · have := tsNs_strictMono hv hvmax h
        omega
  · rintro ⟨hlo, hhi⟩
    have h1 : dtLtB dt nsWindowMin = false := by
      rcases h : dtLtB dt nsWindowMin with _ | _
      · rfl
      · exfalso
        have hlt := tsNs_strictMono hv hvmin h
        rw [hmin] at hlt
        rw [hq] at hlt hlo
        omega
    have h2 : dtLtB nsWindowMax dt = false := by
      rcases h : dtLtB nsWindowMax dt with _ | _
      · rfl
      · exfalso
        have hlt := tsNs_strictMono hvmax hv h
        rw [hmax] at hlt
        rw [hq] at hlt hhi
        omega
    unfold inNanosecondsWindow
    rw [h1, h2]
    rfl

/-- C5: `inNanosecondsWindow` decides, by direct comparison against fixed
calendar bounds, exactly whether the nanosecond-resolution timestamp fits in
a signed 64-bit integer; it rejects 2600-01-01 and accepts 2000-01-01. -/
theorem C5_inNanosecondsWindow :
    (∀ dt : CalendarDateTime, validDateTime dt = true →
      (inNanosecondsWindow dt = true ↔
        -9223372036854775808 ≤ datetimeToTimestamp dt TimeUnit.ns ∧
          datetimeToTimestamp dt TimeUnit.ns ≤ 9223372036854775807)) ∧
    inNanosecondsWindow ⟨2600, 1, 1, 0, 0, 0, 0⟩ = false ∧
    inNanosecondsWindow ⟨2000, 1, 1, 0, 0, 0, 0⟩ = true :=
  ⟨fun dt hv => inNanosecondsWindow_iff dt hv, by decide, by decide⟩

theorem C5_inNanosecondsWindow_witness :
    validDateTime ⟨2000, 1, 1, 0, 0, 0, 0⟩ = true ∧
      (inNanosecondsWindow ⟨2000, 1, 1, 0, 0, 0, 0⟩ = true ↔
        -9223372036854775808 ≤
            datetimeToTimestamp ⟨2000, 1, 1, 0, 0, 0, 0⟩ TimeUnit.ns ∧
          datetimeToTimestamp ⟨2000, 1, 1, 0, 0, 0, 0⟩ TimeUnit.ns ≤
            9223372036854775807) :=
  ⟨by decide, C5_inNanosecondsWindow.1 ⟨2000, 1, 1, 0, 0, 0, 0⟩ (by decide)⟩

/-!
Lemmas about the grouped-aggregation facade and the engine model.
-/

theorem groupRows_key {Row K : Type} [DecidableEq K] (key : Row → K)
    (rows : List Row) (k : K) :
    ∀ r ∈ groupRows key rows k, key r = k := by
  intro r hr
  unfold groupRows at hr
  exact of_decide_eq_true (List.mem_filter.mp hr).2

theorem groupRows_sublist {Row K : Type} [DecidableEq K] (key : Row → K)
    (rows : List Row) (k : K) :
    List.Sublist (groupRows key rows k) rows :=
  List.filter_sublist rows

theorem groupRows_eq_nil {Row K : Type} [DecidableEq K] {key : Row → K}
    {rows : List Row} {k : K} (h : k ∉ rows.map key) :
    groupRows key rows k = [] := by
  unfold groupRows
  rw [List.filter_eq_nil_iff]
  intro r hr hk
  exact h (List.mem_map.mpr ⟨r, hr, of_decide_eq_true hk⟩)

theorem groupRows_ne_nil {Row K : Type} [DecidableEq K] {key : Row → K}
    {rows : List Row} {k : K} (h : k ∈ rows.map key) :
    groupRows key rows k ≠ [] := by
  obtain ⟨r, hr, rfl⟩ := List.mem_map.mp h
  intro hnil
  have hmem : r ∈ groupRows key rows (key r) :=
    List.mem_filter.mpr ⟨hr, by simp⟩
  rw [hnil] at hmem
  exact List.not_mem_nil r hmem

theorem mem_firstSeen {K : Type} [DecidableEq K] {l : List K} {k : K} :
    k ∈ firstSeen l ↔ k ∈ l := by
  induction l with
  | nil => simp [firstSeen]
  | cons a l ih =>
      by_cases h : k = a
      · simp [firstSeen, h]
      · simp [firstSeen, List.mem_filter, h, ih]

theorem nodup_firstSeen {K : Type} [DecidableEq K] (l : List K) :
    (firstSeen l).Nodup := by
  induction l with
  | nil => exact List.nodup_nil
  | cons a l ih =>
      rw [firstSeen, List.nodup_cons]
      constructor
      · intro hmem
        have := List.of_mem_filter hmem
        simp at this
      · exact List.Nodup.filter _ ih

theorem validOrder_firstSeen {Row K : Type} [DecidableEq K] (key : Row → K)
    (rows : List Row) :
    validOrder key rows (firstSeen (rows.map key)) :=
  ⟨nodup_firstSeen _, fun _ hk => mem_firstSeen.mpr hk,
    fun _ hk => mem_firstSeen.mp hk⟩

theorem validOrder_groupOrder {Row K : Type} [DecidableEq K] {key : Row → K}
    {rows : List Row} (mo : Bool) {order : List K}
    (h : validOrder key rows order) :
    validOrder key rows (groupOrder key rows mo order) := by
  cases mo
  · exact h
  · exact validOrder_firstSeen key rows

theorem filter_flatten_blocks {Row K : Type} [DecidableEq K] (key : Row → K)
    (blocks : K → List Row)
    (hconst : ∀ k r, r ∈ blocks k → key r = k) :
    ∀ order : List K, order.Nodup → ∀ k : K,
      ((order.map blocks).flatten.filter (fun r => decide (key r = k))) =
        if k ∈ order then blocks k else [] := by
  intro order
  induction order with
  | nil => simp
  | cons a order ih =>
      intro hnd k
      rw [List.nodup_cons] at hnd
      obtain ⟨ha, hnd⟩ := hnd
      rw [List.map_cons, List.flatten_cons, List.filter_append, ih hnd k]
      by_cases hk : k = a
      · subst hk
        have h1 : (blocks k).filter (fun r => decide (key r = k)) = blocks k :=
          List.filter_eq_self.mpr fun r hr => decide_eq_true (hconst k r hr)
        rw [h1, if_neg ha, if_pos (List.mem_cons_self _ _)]
        exact List.append_nil _
      · have h1 : (blocks a).filter (fun r => decide (key r = k)) = [] := by
          rw [List.filter_eq_nil_iff]
          intro r hr hdec
          exact hk ((of_decide_eq_true hdec).symm.trans (hconst a r hr))
        rw [h1, List.nil_append]
        by_cases hmem : k ∈ order
        · rw [if_pos hmem, if_pos (List.mem_cons_of_mem a hmem)]
        · rw [if_neg hmem, if_neg (by simp [List.mem_cons, hk, hmem])]

theorem groupedHead_filter {Row K : Type} [DecidableEq K] (key : Row → K)
    (rows : List Row) (n : Nat) (mo : Bool) (order : List K)
    (h : validOrder key rows order) (k : K) :
    (groupedHead key rows n mo order).filter (fun r => decide (key r = k)) =
      (groupRows key rows k).take n := by
  have hvo := validOrder_groupOrder mo h
  unfold groupedHead
  rw [filter_flatten_blocks key (fun k => (groupRows key rows k).take n)
    (fun k r hr => groupRows_key key rows k r (List.take_subset n _ hr))
    _ hvo.1 k]
  by_cases hmem : k ∈ groupOrder key rows mo order
  · rw [if_pos hmem]
  · rw [if_neg hmem]
    have hnil : groupRows key rows k = [] :=
      groupRows_eq_nil (fun hc => hmem (hvo.2.1 k hc))
    rw [hnil]
    simp

theorem groupedTail_filter {Row K : Type} [DecidableEq K] (key : Row → K)
    (rows : List Row) (n : Nat) (mo : Bool) (order : List K)
    (h : validOrder key rows order) (k : K) :
    (groupedTail key rows n mo order).filter (fun r => decide (key r = k)) =
      (groupRows key rows k).drop ((groupRows key rows k).length - n) := by
  have hvo := validOrder_groupOrder mo h
  unfold groupedTail
  rw [filter_flatten_blocks key
    (fun k => (groupRows key rows k).drop ((groupRows key rows k).length - n))
    (fun k r hr => groupRows_key key rows k r (List.drop_subset _ _ hr))
    _ hvo.1 k]
  by_cases hmem : k ∈ groupOrder key rows mo order
  · rw [if_pos hmem]
  · rw [if_neg hmem]
    have hnil : groupRows key rows k = [] :=
      groupRows_eq_nil (fun hc => hmem (hvo.2.1 k hc))
    rw [hnil]
    simp

/-- C1: `agg` rejects any input that is neither a single expression nor a
non-empty sequence of expressions, with an error naming the received shape,
and makes no engine call on such input. -/
theorem C1_agg_shape_mismatch :
    ∀ (E : Type) (aggs : AggsInput E), isExprOrExprSequence aggs = false →
      lazyGroupByAgg aggs = Except.error (aggErrorMessage aggs) ∧
        ∀ c : EngineCall E, lazyGroupByAgg aggs ≠ Except.ok c := by
  intro E aggs h
  unfold lazyGroupByAgg
  rw [h]
  exact ⟨rfl, fun c hc => Except.noConfusion hc⟩

theorem C1_agg_shape_mismatch_witness :
    isExprOrExprSequence (AggsInput.bareStr "groups" : AggsInput Unit) = false ∧
      lazyGroupByAgg (AggsInput.bareStr "groups" : AggsInput Unit) =
        Except.error (aggErrorMessage (AggsInput.bareStr "groups" : AggsInput Unit)) ∧
      isExprOrExprSequence (AggsInput.sequenceOf [] : AggsInput Unit) = false ∧
      lazyGroupByAgg (AggsInput.sequenceOf [] : AggsInput Unit) =
        Except.error (aggErrorMessage (AggsInput.sequenceOf [] : AggsInput Unit)) :=
  ⟨rfl, (C1_agg_shape_mismatch Unit (AggsInput.bareStr "groups") rfl).1, rfl,
    (C1_agg_shape_mismatch Unit (AggsInput.sequenceOf []) rfl).1⟩

/-- C9: `head` and `tail` validate nothing at the facade layer, never fail
there, and forward the row count unchanged — negative included — to the
engine's grouped-head/grouped-tail entry points. -/
theorem C9_head_tail_forward :
    ∀ (E : Type) (n : Int),
      (lazyGroupByHead n : Except String (EngineCall E)) =
          Except.ok (EngineCall.headCall n) ∧
        (lazyGroupByTail n : Except String (EngineCall E)) =
          Except.ok (EngineCall.tailCall n) :=
  fun _ _ => ⟨rfl, rfl⟩

/-- C6: for every group, `head n` keeps the first `n` rows of the group and
`tail n` keeps the last `n` rows, both in original input row order, and a
group with at most `n` rows is kept whole by either operation. -/
theorem C6_head_tail_per_group :
    ∀ {Row K : Type} [DecidableEq K] (key : Row → K) (rows : List Row)
      (n : Nat) (mo : Bool) (order : List K), validOrder key rows order →
      ∀ k : K,
        (groupedHead key rows n mo order).filter (fun r => decide (key r = k)) =
            (groupRows key rows k).take n ∧
          (groupedTail key rows n mo order).filter (fun r => decide (key r = k)) =
            (groupRows key rows k).drop ((groupRows key rows k).length - n) ∧
          ((groupRows key rows k).length ≤ n →
            (groupedHead key rows n mo order).filter
                (fun r => decide (key r = k)) = groupRows key rows k ∧
              (groupedTail key rows n mo order).filter
                (fun r => decide (key r = k)) = groupRows key rows k) := by
  intro Row K inst key rows n mo order h k
  refine ⟨groupedHead_filter key rows n mo order h k,
    groupedTail_filter key rows n mo order h k, fun hle => ⟨?_, ?_⟩⟩
  · rw [groupedHead_filter key rows n mo order h k]
    exact List.take_of_length_le hle
  · rw [groupedTail_filter key rows n mo order h k]
    have : (groupRows key rows k).length - n = 0 := by omega
    rw [this, List.drop_zero]

theorem C6_head_tail_per_group_witness :
    validOrder Prod.fst demoRows ["c", "a", "b"] ∧
      ((groupedHead Prod.fst demoRows 2 false ["c", "a", "b"]).filter
          (fun r => decide (r.1 = "c")) =
          (groupRows Prod.fst demoRows "c").take 2 ∧
        (groupedTail Prod.fst demoRows 2 false ["c", "a", "b"]).filter
            (fun r => decide (r.1 = "c")) =
          (groupRows Prod.fst demoRows "c").drop
            ((groupRows Prod.fst demoRows "c").length - 2) ∧
        ((groupRows Prod.fst demoRows "c").length ≤ 2 →
          (groupedHead Prod.fst demoRows 2 false ["c", "a", "b"]).filter
              (fun r => decide (r.1 = "c")) = groupRows Prod.fst demoRows "c" ∧
            (groupedTail Prod.fst demoRows 2 false ["c", "a", "b"]).filter
              (fun r => decide (r.1 = "c")) = groupRows Prod.fst demoRows "c")) :=
  ⟨by decide,
    C6_head_tail_per_group Prod.fst demoRows 2 false ["c", "a", "b"]
      (by decide) "c"⟩

theorem firstSeen_append_const {K : Type} [DecidableEq K] (a : K) :
    ∀ b : List K, b ≠ [] → (∀ x ∈ b, x = a) → ∀ rest : List K,
      firstSeen (b ++ rest) =
        a :: (firstSeen rest).filter (fun k2 => !decide (k2 = a)) := by
  intro b
  induction b with
  | nil => intro hne; cases hne rfl
  | cons x b ih =>
      intro _ hconst rest
      have hx : x = a := hconst x (List.mem_cons_self x b)
      subst hx
      rcases b with _ | ⟨y, b⟩
      · simp [firstSeen]
      · rw [List.cons_append, firstSeen,
          ih (List.cons_ne_nil y b)
            (fun z hz => hconst z (List.mem_cons_of_mem x hz)) rest]
        simp [List.filter, List.filter_filter, Bool.and_self]

theorem firstSeen_flatten_const {K : Type} [DecidableEq K] (bl : K → List K) :
    ∀ order : List K, order.Nodup → (∀ k ∈ order, bl k ≠ []) →
      (∀ k ∈ order, ∀ x ∈ bl k, x = k) →
      firstSeen ((order.map bl).flatten) = order := by
  intro order
  induction order with
  | nil => intro _ _ _; simp [firstSeen]
  | cons a order ih =>
      intro hnd hne hconst
      rw [List.nodup_cons] at hnd
      rw [List.map_cons, List.flatten_cons,
        firstSeen_append_const a (bl a) (hne a (List.mem_cons_self a order))
          (hconst a (List.mem_cons_self a order)) _,
        ih hnd.2 (fun k hk => hne k (List.mem_cons_of_mem a hk))
          (fun k hk => hconst k (List.mem_cons_of_mem a hk))]
      congr 1
      rw [List.filter_eq_self]
      intro x hx
      simp only [Bool.not_eq_true']
      exact decide_eq_false fun hxa => hnd.1 (hxa ▸ hx)

theorem firstSeen_selected {Row K : Type} [DecidableEq K] (key : Row → K)
    (rows : List Row) (sel : List Row → List Row)
    (hsub : ∀ g : List Row, ∀ r ∈ sel g, r ∈ g)
    (hne : ∀ g : List Row, g ≠ [] → sel g ≠ []) :
    firstSeen ((((firstSeen (rows.map key)).map
        (fun k => sel (groupRows key rows k))).flatten).map key) =
      firstSeen (rows.map key) := by
  rw [List.map_flatten, List.map_map]
  apply firstSeen_flatten_const
  · exact nodup_firstSeen _
  · intro k hk
    simp only [Function.comp_apply]
    have hgne := groupRows_ne_nil (mem_firstSeen.mp hk)
    intro hmn
    exact hne _ hgne (List.map_eq_nil_iff.mp hmn)
  · intro k hk x hx
    simp only [Function.comp_apply] at hx
    obtain ⟨r, hr, rfl⟩ := List.mem_map.mp hx
    exact groupRows_key key rows k r (hsub _ r hr)

/-- C7: with `maintain_order` set, `head`, `tail`, `agg` and `apply` emit
groups in first-seen key order, and regardless of the flag the rows kept per
group by `head`/`tail` stay in original input row order (a sublist of the
input). -/
theorem C7_ordering_contract :
    ∀ {Row K : Type} [DecidableEq K] (key : Row → K) (rows : List Row),
      (∀ n : Nat, 1 ≤ n → ∀ engineOrder : List K,
        firstSeen ((groupedHead key rows n true engineOrder).map key) =
            firstSeen (rows.map key) ∧
          firstSeen ((groupedTail key rows n true engineOrder).map key) =
            firstSeen (rows.map key)) ∧
      (∀ (A : Type) (e : List Row → A) (engineOrder : List K),
        (groupedAgg key rows e true engineOrder).map Prod.fst =
          firstSeen (rows.map key)) ∧
      (∀ engineOrder : List K,
        groupedApplyTables key rows true engineOrder =
          (firstSeen (rows.map key)).map (groupRows key rows)) ∧
      (∀ (n : Nat) (mo : Bool) (order : List K), validOrder key rows order →
        ∀ k : K,
          List.Sublist ((groupedHead key rows n mo order).filter
              (fun r => decide (key r = k))) rows ∧
            List.Sublist ((groupedTail key rows n mo order).filter
              (fun r => decide (key r = k))) rows) := by
  intro Row K inst key rows
  refine ⟨fun n hn engineOrder => ⟨?_, ?_⟩, fun A e engineOrder => ?_,
    fun engineOrder => ?_, fun n mo order h k => ⟨?_, ?_⟩⟩
  · unfold groupedHead groupOrder
    rw [if_pos rfl]
    exact firstSeen_selected key rows (fun g => g.take n)
      (fun g r hr => List.take_subset n g hr)
      (fun g hg hnil => (List.take_eq_nil_iff.mp hnil).elim (by omega) hg)
  · unfold groupedTail groupOrder
    rw [if_pos rfl]
    exact firstSeen_selected key rows (fun g => g.drop (g.length - n))
      (fun g r hr => List.drop_subset _ g hr)
      (fun g hg hnil => by
        have hpos : 0 < g.length := List.length_pos.mpr hg
        have := List.drop_eq_nil_iff.mp hnil
        omega)
  · unfold groupedAgg groupOrder
    rw [if_pos rfl, List.map_map,
      show (Prod.fst ∘ fun k => ((k : K), e (groupRows key rows k))) = id from
        rfl, List.map_id]
  · unfold groupedApplyTables groupOrder
    rw [if_pos rfl]
  · rw [groupedHead_filter key rows n mo order h k]
    exact (List.take_sublist n _).trans (groupRows_sublist key rows k)
  · rw [groupedTail_filter key rows n mo order h k]
    exact (List.drop_sublist _ _).trans (groupRows_sublist key rows k)

theorem C7_ordering_contract_witness :
    (1 ≤ 2 ∧
      firstSeen ((groupedHead Prod.fst demoRows 2 true
          ([] : List String)).map Prod.fst) =
        firstSeen (demoRows.map Prod.fst)) ∧
      validOrder Prod.fst demoRows ["c", "a", "b"] ∧
      List.Sublist ((groupedHead Prod.fst demoRows 2 false
          ["c", "a", "b"]).filter (fun r => decide (r.1 = "c"))) demoRows :=
  ⟨⟨by decide, ((C7_ordering_contract Prod.fst demoRows).1 2 (by decide) []).1⟩,
    by decide,
    (((C7_ordering_contract Prod.fst demoRows).2.2.2 2 false ["c", "a", "b"]
      (by decide)) "c").1⟩

theorem flatten_singletons {α β : Type} (g : α → β) :
    ∀ (L : List α) (f : α → List β), (∀ k ∈ L, f k = [g k]) →
      (L.map f).flatten = L.map g := by
  intro L
  induction L with
  | nil => intro f _; rfl
  | cons a L ih =>
      intro f h
      simp only [List.map_cons, List.flatten_cons]
      rw [h a (List.mem_cons_self a L),
        ih f (fun k hk => h k (List.mem_cons_of_mem a hk)),
        List.singleton_append]

/-- C8: computing a per-group aggregate through `apply` with a callback that
returns one row per group equals computing it through `agg` with the native
expression, the callback tables are handed over sequentially in contracted
group order, and on the docstring example both paths give
`[(a,1), (b,2), (c,4)]` in first-seen order. -/
theorem C8_apply_agg_equivalence :
    (∀ (Row K A : Type) [DecidableEq K] (key : Row → K) (rows : List Row)
      (f : List Row → List (K × A)) (e : List Row → A) (mo : Bool)
      (order : List K),
      (∀ k ∈ groupOrder key rows mo order,
        f (groupRows key rows k) = [(k, e (groupRows key rows k))]) →
      groupedApply key rows f mo order = groupedAgg key rows e mo order) ∧
    (∀ (Row K : Type) [DecidableEq K] (key : Row → K) (rows : List Row)
      (engineOrder : List K),
      groupedApplyTables key rows true engineOrder =
        (firstSeen (rows.map key)).map (groupRows key rows)) ∧
    groupedApply Prod.fst demoRows2 sumCallback true [] =
        groupedAgg Prod.fst demoRows2 sumFoo true [] ∧
    groupedAgg Prod.fst demoRows2 sumFoo true [] =
      [("a", 1), ("b", 2), ("c", 4)] := by
  refine ⟨?_, ?_, by decide, by decide⟩
  · intro Row K A inst key rows f e mo order h
    unfold groupedApply groupedApplyTables groupedAgg
    rw [List.map_map]
    exact flatten_singletons (fun k => (k, e (groupRows key rows k)))
      (groupOrder key rows mo order) (f ∘ groupRows key rows)
      (fun k hk => h k hk)
  · intro Row K inst key rows engineOrder
    unfold groupedApplyTables groupOrder
    rw [if_pos rfl]

theorem C8_apply_agg_equivalence_witness :
    (∀ k ∈ groupOrder Prod.fst demoRows2 true ([] : List String),
      sumCallback (groupRows Prod.fst demoRows2 k) =
        [(k, sumFoo (groupRows Prod.fst demoRows2 k))]) ∧
      groupedApply Prod.fst demoRows2 sumCallback true [] =
        groupedAgg Prod.fst demoRows2 sumFoo true [] :=
  ⟨by decide,
    C8_apply_agg_equivalence.1 (String × Int) String Int Prod.fst demoRows2
      sumCallback sumFoo true [] (by decide)⟩

end PolarsSpec
